import Mathlib

/-!
# Verification of the ISS_pyIRIS core against its specification

Shallow embedding of the core algorithms of the pyIRIS pipeline:

* `src/IRIS/register_images.py` — the registration engine `register_cycles`
  (iterative outlier rejection and the final affine estimate with its
  identity fallback).  The OpenCV estimator `estimateAffinePartial2D` is an
  external collaborator; it is modelled by an oracle producing the inlier
  mask of a round, and by a function producing the (optional) final matrix.
* `src/IRIS/connect_barcodes.py` — the consensus engine `BasesCube`
  (`filter_blobs_list` coordinate deduplication and `calling_adjust`
  distance-penalized base selection).  The OpenCV pair
  `findContours`/`moments` is modelled by connected components of the
  rasterized mask together with a centroid function; theorems about the
  deduplicator quantify over an arbitrary centroid function, and concrete
  counterexamples instantiate it with the Green-area centroid of a full
  rectangle, which is exactly what `cv2.moments` computes on the
  rectangular components arising there.

Error rates and matrix entries are modelled over `ℝ` resp. `ℚ`
(the Python floats are treated as exact arithmetic).
-/

set_option maxHeartbeats 1000000

/-! ## Registration engine (src/IRIS/register_images.py) -/

/-- A transform matrix: a 2×3 matrix given as its list of rows
(`numpy` array of shape 2×3 in the source), entries modelled as `ℚ`. -/
abbrev TMat := List (List ℚ)

/-- Line 146: `transform_matrix = array([[1.0, 0.0, 0.0], [0.0, 1.0, 0.0]])` —
the identity transform used as the fallback value. -/
def identityTransform : TMat := [[1, 0, 0], [0, 1, 0]]

/-- Line 176: `good_matches = [good_matches[_] for _ in range(0, mask.size) if mask[_][0] == 1]` —
keep the matches whose mask entry is an inlier flag.  The estimator's mask has
one entry per input match, so the list comprehension is a zip-filter. -/
def applyMask {α : Type} (ms : List α) (mask : List Bool) : List α :=
  (ms.zip mask).filterMap (fun pm => if pm.2 then some pm.1 else none)

/-- The number of inliers of a round: `sum([mask[_][0] for _ in range(0, mask.size)])`. -/
def inlierCount (mask : List Bool) : ℕ := mask.count true

/-- The number of outliers of a round (mask entries equal to 0). -/
def outlierCount (mask : List Bool) : ℕ := mask.count false

/-- Line 178: `n = sum([mask[_][0] for _ in range(0, mask.size)]) - mask.size`,
an integer (it is never positive, see `nValue_nonpos`). -/
def nValue (mask : List Bool) : ℤ := (inlierCount mask : ℤ) - (mask.length : ℤ)

/-- Lines 169–178: the outlier-rejection loop `while n > 0`.  `oracle` models
the inlier mask returned by `estimateAffinePartial2D(pts_b, pts_a)` for the
current match list; `fuel` bounds the number of rounds (the Python loop has no
bound, but the loop guard makes further rounds unreachable, see
`rejectLoop_single_round`). -/
def rejectLoop {α : Type} (oracle : List α → List Bool) : ℕ → List α → List α
  | 0, ms => ms
  | fuel + 1, ms =>
    let mask := oracle ms
    let ms' := applyMask ms mask
    if 0 < nValue mask then rejectLoop oracle fuel ms' else ms'

/-- Modelled from the spec (§4.1 step 5 and the source comment at lines
166–168): repeat the fit/filter round while the round's outlier count is
nonzero, i.e. stop exactly when a round rejects no match. -/
def specRejectLoop {α : Type} (oracle : List α → List Bool) : ℕ → List α → List α
  | 0, ms => ms
  | fuel + 1, ms =>
    let mask := oracle ms
    let ms' := applyMask ms mask
    if 0 < outlierCount mask then specRejectLoop oracle fuel ms' else ms'

/-- Lines 169–193 of `register_cycles`, starting after the match step:
run the outlier-rejection loop, then, if at least 4 matches remain, return
whatever the final RANSAC estimate yields (`none` models the estimator
returning no matrix, the `MATRIX GENERATION FAILED` branch, after which the
Python function returns `None`); otherwise (`NO ENOUGH MATCHED FEATURES`)
return the identity transform initialised at line 146. -/
def register_cycles {α : Type} (oracle : List α → List Bool)
    (estimateRansac : List α → Option TMat) (good0 : List α) : Option TMat :=
  let good := rejectLoop oracle (good0.length + 1) good0
  if 4 ≤ good.length then estimateRansac good else some identityTransform

/-- A concrete mask oracle: on 5 matches it marks the last one an outlier, on
4 matches it marks the last one an outlier, otherwise it marks every match an
inlier. -/
def oracleC1 : List ℕ → List Bool := fun ms =>
  if ms.length = 5 then [true, true, true, true, false]
  else if ms.length = 4 then [true, true, true, false]
  else List.replicate ms.length true

/-- A mask oracle that marks every match an inlier. -/
def oracleAllTrue : List ℕ → List Bool := fun ms => List.replicate ms.length true

/-- A final estimator that yields no matrix (degenerate point configuration). -/
def estNone : List ℕ → Option TMat := fun _ => none

/-! ## Consensus adjuster (src/IRIS/connect_barcodes.py, `calling_adjust`) -/

/-- The base symbols stored in a call map (`'A'`, `'T'`, `'C'`, `'G'`, `'N'`
in the source). -/
inductive Base : Type
  | A | T | C | G | N
deriving DecidableEq

/-- A per-cycle call map: lattice coordinate (row, col) ↦ (base, error rate),
i.e. `f_bases_cube[f_cycle_id]`.  The source keys the map by the string
`'r%05dc%05d'`; looking up a window cell with a negative row or column never
matches a key, which a total function on `ℤ × ℤ` subsumes (such a map simply
returns `none` there). -/
abbrev CallMap := ℤ × ℤ → Option (Base × ℝ)

/-- Lines 67–68: the cells scanned for consensus coordinate `(r, c)`, in the
source's row-major order — `for row in range(r - 5, r + 7): for col in
range(c - 5, c + 7)`. -/
def windowList (r c : ℤ) : List (ℤ × ℤ) :=
  (List.range 12).flatMap (fun (i : ℕ) =>
    (List.range 12).map (fun (j : ℕ) => (r - 5 + (i : ℤ), c - 5 + (j : ℤ))))

/-- Lines 73–78: the distance-penalized error rate of a raw call with error
rate `e` at cell `(row, col)`, relative to consensus coordinate `(r, c)`:
`D = sqrt((row-r)^2 + (col-c)^2)`,
`adj = sqrt((e*D)^2 + e^2)`, clamped to 1 when it exceeds 1. -/
noncomputable def adjErr (e : ℝ) (row col r c : ℤ) : ℝ :=
  let D := Real.sqrt (((row - r : ℤ) : ℝ) ^ 2 + ((col - c : ℤ) : ℝ) ^ 2)
  let a := Real.sqrt ((e * D) ^ 2 + e ^ 2)
  if 1 < a then 1 else a

/-- Lines 71–82: the loop body for one window cell `p`: if the cycle's call
map holds a raw call at `p`, compute its adjusted error rate and keep it as
the running `(max_qul_base, min_err_rate)` when it is strictly smaller than
the running minimum. -/
noncomputable def adjStep (cm : CallMap) (r c : ℤ) (st : Base × ℝ) (p : ℤ × ℤ) :
    Base × ℝ :=
  match cm p with
  | none => st
  | some be =>
    let a := adjErr be.2 p.1 p.2 r c
    if a < st.2 then (be.1, a) else st

/-- Lines 64–82: the full window scan for consensus coordinate `(r, c)`,
starting from `max_qul_base = 'N'`, `min_err_rate = 1.0`. -/
noncomputable def adjustAt (cm : CallMap) (r c : ℤ) : Base × ℝ :=
  (windowList r c).foldl (adjStep cm r c) (Base.N, 1)

/-- Lines 55–84 `_check_greyscale`: the adjusted map of one cycle assigns
`adjustAt` to every consensus coordinate of the blobs list. -/
noncomputable def check_greyscale (blobs : List (ℤ × ℤ)) (cm : CallMap) :
    List ((ℤ × ℤ) × Base × ℝ) :=
  blobs.map (fun rc => (rc, adjustAt cm rc.1 rc.2))

/-- Lines 86–90: `calling_adjust` runs `_check_greyscale` for every cycle of
the bases cube. -/
noncomputable def calling_adjust (blobs : List (ℤ × ℤ)) (cube : List CallMap) :
    List (List ((ℤ × ℤ) × Base × ℝ)) :=
  cube.map (check_greyscale blobs)

/-- A call map with no raw calls at all. -/
noncomputable def cmEmpty : CallMap := fun _ => none

/-- A call map with a single raw call `('A', 0)` at the origin. -/
noncomputable def cmSingleZero : CallMap :=
  fun p => if p = (0, 0) then some (Base.A, 0) else none

/-- A call map with a single raw call `('A', 1)` (maximal raw error rate) at
the origin. -/
noncomputable def cmSingleOne : CallMap :=
  fun p => if p = (0, 0) then some (Base.A, 1) else none

/-- A call map with a single raw call far outside the window of `(0, 0)`. -/
noncomputable def cmFar : CallMap :=
  fun p => if p = (100, 100) then some (Base.A, 0) else none

/-! ## Coordinate deduplicator (src/IRIS/connect_barcodes.py, `filter_blobs_list`) -/

/-- A pixel / lattice coordinate of the rasterized blobs mask: (row, col). -/
abbrev Pix := ℕ × ℕ

/-- 8-adjacency of two distinct mask pixels — the connectivity under which
`cv2.findContours` groups mask pixels into contours/components. -/
def adj8 (p q : Pix) : Prop :=
  p ≠ q ∧ p.1 ≤ q.1 + 1 ∧ q.1 ≤ p.1 + 1 ∧ p.2 ≤ q.2 + 1 ∧ q.2 ≤ p.2 + 1

instance (p q : Pix) : Decidable (adj8 p q) := by
  unfold adj8
  infer_instance

/-- One expansion step of a component: add every mask pixel of `S` that is
8-adjacent to the current set `X`. -/
def expandStep (S X : Finset Pix) : Finset Pix :=
  X ∪ S.filter (fun q => ∃ p ∈ X, adj8 p q)

/-- Iterated expansion. -/
def compIter (S : Finset Pix) : ℕ → Finset Pix → Finset Pix
  | 0, X => X
  | n + 1, X => compIter S n (expandStep S X)

/-- The 8-connected component of `p` in the mask `S` (`S.card` expansion
steps always reach the fixpoint, see `expandStep_component`). -/
def component (S : Finset Pix) (p : Pix) : Finset Pix :=
  compIter S S.card {p}

/-- The connected components of a mask — the pixel sets for which
`findContours` retrieves one external contour each. -/
def componentsOf (S : Finset Pix) : Finset (Finset Pix) :=
  S.image (fun p => component S p)

/-- The centroid coordinates that lines 42–49 add to `new_coor` for a given
mask: one optional centroid per contour/component, where `cf` models the
composite of `cv2.moments` and the `int()` truncations (`none` models the
contours skipped by the `m00 != 0` test at line 45). -/
def centroidsOf (cf : Finset Pix → Option Pix) (S : Finset Pix) : Finset Pix :=
  (componentsOf S).biUnion (fun C => (cf C).toFinset)

/-- Line 38: `blobs_mask[r:(r + 2), c:(c + 2)] = 255` — the 2×2 pixel
footprint of a candidate coordinate, clipped to the background shape. -/
def footprint (shape : ℕ × ℕ) (co : Pix) : Finset Pix :=
  (Finset.range shape.1 ×ˢ Finset.range shape.2).filter
    (fun p => co.1 ≤ p.1 ∧ p.1 < co.1 + 2 ∧ co.2 ≤ p.2 ∧ p.2 < co.2 + 2)

/-- Lines 34–49: one iteration of the `for coor in self.__all_blobs_list`
loop — paint the coordinate's footprint into the accumulating mask,
recompute the contours of the (partial!) mask, and add every contour's
centroid to `new_coor`. -/
def dedupStep (shape : ℕ × ℕ) (cf : Finset Pix → Option Pix)
    (st : Finset Pix × Finset Pix) (co : Pix) : Finset Pix × Finset Pix :=
  let mask := st.1 ∪ footprint shape co
  (mask, st.2 ∪ centroidsOf cf mask)

/-- Lines 28–51 `filter_blobs_list`: fold the per-coordinate step over the
candidate set in its enumeration order (a list), starting from the all-zero
mask and the empty `new_coor`; the second state component is the consensus
set that replaces `self.__all_blobs_list`. -/
def filter_blobs_list (shape : ℕ × ℕ) (cf : Finset Pix → Option Pix)
    (l : List Pix) : Finset Pix :=
  (l.foldl (dedupStep shape cf) (∅, ∅)).2

/-- The full rectangle of pixels `[r0..r1] × [c0..c1]`. -/
def rectFinset (r0 r1 c0 c1 : ℕ) : Finset Pix :=
  Finset.Icc r0 r1 ×ˢ Finset.Icc c0 c1

/-- `cv2.findContours` + `cv2.moments` + `int()` (lines 40–47) on a component
that is a full axis-aligned rectangle of pixels: the external contour is the
polygon through the boundary pixel centres, whose Green-theorem area `m00`
equals `(r1-r0)*(c1-c0)` — zero, hence skipped by line 45, exactly when the
rectangle is a single row or column — and whose centroid is the rectangle
centre `((r0+r1)/2, (c0+c1)/2)` after the `int()` truncation (the `abs` of
lines 46–47 is a no-op on nonnegative values).  On a component that is not a
full rectangle the model returns `none`; the concrete masks used below only
ever produce full-rectangle components, on which this function agrees
exactly with OpenCV. -/
def cvRectCentroid (C : Finset Pix) : Option Pix :=
  if h : C.Nonempty then
    let r0 := C.inf' h Prod.fst
    let r1 := C.sup' h Prod.fst
    let c0 := C.inf' h Prod.snd
    let c1 := C.sup' h Prod.snd
    if r0 < r1 ∧ c0 < c1 ∧ C = rectFinset r0 r1 c0 c1 then
      some ((r0 + r1) / 2, (c0 + c1) / 2)
    else none
  else none

/-- Background shape for the concrete deduplicator runs below (any shape
containing the footprints involved behaves identically). -/
def shapeEx : ℕ × ℕ := (4, 5)

/-- Reachability inside the mask `S`: the reflexive-transitive closure of
8-adjacency restricted to `S` (the paths along which `findContours` connects
mask pixels into one component). -/
def reachIn (S : Finset Pix) (p q : Pix) : Prop :=
  Relation.ReflTransGen (fun a b => a ∈ S ∧ b ∈ S ∧ adj8 a b) p q

/-- Numeric separation of two candidate coordinates: their rows or their
columns differ by at least 3, so that their 2×2 footprints neither overlap
nor touch (not even diagonally). -/
def sep (a b : Pix) : Prop :=
  a.1 + 3 ≤ b.1 ∨ b.1 + 3 ≤ a.1 ∨ a.2 + 3 ≤ b.2 ∨ b.2 + 3 ≤ a.2

instance (a b : Pix) : Decidable (sep a b) := by
  unfold sep
  infer_instance

/-- A candidate coordinate whose 2×2 footprint lies fully inside the
background shape. -/
def inBoundsFull (shape : ℕ × ℕ) (co : Pix) : Prop :=
  co.1 + 1 < shape.1 ∧ co.2 + 1 < shape.2

instance (shape : ℕ × ℕ) (co : Pix) : Decidable (inBoundsFull shape co) := by
  unfold inBoundsFull
  infer_instance

/-! ## Theorems: registration engine -/

/-- The value `n` computed at line 178 is never positive: the inlier count of
a mask is at most its length. -/
theorem nValue_nonpos (mask : List Bool) : nValue mask ≤ 0 := by
  have h : inlierCount mask ≤ mask.length := List.count_le_length true mask
  unfold nValue
  omega

/-- The `while n > 0` loop therefore performs exactly one fit/filter round,
whatever the estimator's masks are: its result is the first round's inlier
set. -/
theorem rejectLoop_single_round {α : Type} (oracle : List α → List Bool)
    (fuel : ℕ) (ms : List α) (hf : 1 ≤ fuel) :
    rejectLoop oracle fuel ms = applyMask ms (oracle ms) := by
  cases fuel with
  | zero => omega
  | succ n =>
    show (if 0 < nValue (oracle ms) then _ else _) = _
    have h := nValue_nonpos (oracle ms)
    rw [if_neg (by omega)]

/-- C1: the iterative outlier rejection is claimed to stop exactly when a
round's outlier count is zero and otherwise to repeat on the reduced set.
The code computes `n = (number of inliers) − (number of matches)`, which is
never positive, so the `while n > 0` loop stops after a single round even
when that round rejected matches — contradicting the source's own comment
("Filter the outline of paired key points iteratively until there's no
outlines") and the spec.  At a concrete input whose first round rejects one
of 5 matches and whose second round (were it executed, as the claim demands)
would reject one of the 4 remaining matches, the code keeps 4 matches while
the spec-modelled loop keeps 3. -/
theorem c1_outlier_loop_single_round_bug :
    outlierCount (oracleC1 [0, 1, 2, 3, 4]) = 1 ∧
    rejectLoop oracleC1 6 [0, 1, 2, 3, 4] = [0, 1, 2, 3] ∧
    specRejectLoop oracleC1 6 [0, 1, 2, 3, 4] = [0, 1, 2] ∧
    rejectLoop oracleC1 6 [0, 1, 2, 3, 4] ≠ specRejectLoop oracleC1 6 [0, 1, 2, 3, 4] := by
  decide

/-- C2 (counterexample): with 4 matches kept by the rejection loop and a
final estimator that yields no matrix, `register_cycles` does *not* return
the identity transform — it returns `none` (the Python function returns
`None` after printing `MATRIX GENERATION FAILED`). -/
theorem c2_counterexample_none_not_identity :
    4 ≤ (rejectLoop oracleAllTrue 5 [0, 1, 2, 3]).length ∧
    estNone (rejectLoop oracleAllTrue 5 [0, 1, 2, 3]) = none ∧
    register_cycles oracleAllTrue estNone [0, 1, 2, 3] ≠ some identityTransform := by
  decide

/-- C2 (amended): whenever at least 4 matches remain after outlier rejection
and the robust estimator yields no matrix, `register_cycles` reports the
failure and returns `none` (no transform at all) — the identity fallback is
returned only in the fewer-than-4-matches branch. -/
theorem c2_register_returns_none_on_unsolvable {α : Type}
    (oracle : List α → List Bool) (estimateRansac : List α → Option TMat)
    (good0 : List α)
    (h4 : 4 ≤ (rejectLoop oracle (good0.length + 1) good0).length)
    (hnone : estimateRansac (rejectLoop oracle (good0.length + 1) good0) = none) :
    register_cycles oracle estimateRansac good0 = none := by
  unfold register_cycles
  simp only [if_pos h4, hnone]

/-- Witness for `c2_register_returns_none_on_unsolvable` at a concrete input. -/
theorem c2_register_returns_none_on_unsolvable_witness :
    4 ≤ (rejectLoop oracleAllTrue 5 [0, 1, 2, 3]).length ∧
    register_cycles oracleAllTrue estNone [0, 1, 2, 3] = none :=
  ⟨by decide,
   c2_register_returns_none_on_unsolvable oracleAllTrue estNone [0, 1, 2, 3]
     (by decide) rfl⟩

/-- C4: if fewer than 4 matches remain after outlier rejection, the
registration failure is reported and exactly the identity transform
`[[1,0,0],[0,1,0]]` is returned. -/
theorem c4_register_identity_on_few_matches {α : Type}
    (oracle : List α → List Bool) (estimateRansac : List α → Option TMat)
    (good0 : List α)
    (hfew : (rejectLoop oracle (good0.length + 1) good0).length < 4) :
    register_cycles oracle estimateRansac good0 = some identityTransform := by
  unfold register_cycles
  rw [if_neg (by omega)]

/-- Witness for `c4_register_identity_on_few_matches` at a concrete input. -/
theorem c4_register_identity_on_few_matches_witness :
    (rejectLoop oracleAllTrue 1 ([] : List ℕ)).length < 4 ∧
    register_cycles oracleAllTrue estNone ([] : List ℕ) = some identityTransform :=
  ⟨by decide,
   c4_register_identity_on_few_matches oracleAllTrue estNone [] (by decide)⟩

/-! ## Theorems: consensus adjuster -/

/-- Window membership is exactly the half-open box `[r-5, r+7) × [c-5, c+7)`. -/
theorem mem_windowList {r c : ℤ} {p : ℤ × ℤ} :
    p ∈ windowList r c ↔
      (r - 5 ≤ p.1 ∧ p.1 < r + 7 ∧ c - 5 ≤ p.2 ∧ p.2 < c + 7) := by
  constructor
  · intro hp
    rw [windowList, List.mem_flatMap] at hp
    obtain ⟨i, hi, hp⟩ := hp
    rw [List.mem_map] at hp
    obtain ⟨j, hj, hpe⟩ := hp
    rw [List.mem_range] at hi hj
    subst hpe
    refine ⟨?_, ?_, ?_, ?_⟩ <;> dsimp only <;> omega
  · rintro ⟨h1, h2, h3, h4⟩
    rw [windowList, List.mem_flatMap]
    refine ⟨(p.1 - (r - 5)).toNat, List.mem_range.mpr (by omega), ?_⟩
    rw [List.mem_map]
    refine ⟨(p.2 - (c - 5)).toNat, List.mem_range.mpr (by omega), ?_⟩
    obtain ⟨p1, p2⟩ := p
    dsimp only at h1 h2 h3 h4 ⊢
    rw [Prod.mk.injEq]
    constructor
    · omega
    · omega

/-- A fold over cells that all miss the call map leaves the state unchanged. -/
theorem foldl_adjStep_none (cm : CallMap) (r c : ℤ) :
    ∀ (l : List (ℤ × ℤ)) (st : Base × ℝ), (∀ p ∈ l, cm p = none) →
      List.foldl (adjStep cm r c) st l = st := by
  intro l
  induction l with
  | nil => intro st _; rfl
  | cons q l ih =>
    intro st h
    have hq : cm q = none := h q (List.mem_cons_self q l)
    have hstep : adjStep cm r c st q = st := by
      unfold adjStep
      rw [hq]
    rw [List.foldl_cons, hstep]
    exact ih st (fun p hp => h p (List.mem_cons_of_mem q hp))

/-- Applying the loop body twice at the same cell is the same as applying it
once (the strict comparison cannot fire against its own value). -/
theorem adjStep_self_idem (cm : CallMap) (r c : ℤ) (st : Base × ℝ) (p : ℤ × ℤ) :
    adjStep cm r c (adjStep cm r c st p) p = adjStep cm r c st p := by
  unfold adjStep
  cases hcm : cm p with
  | none => rfl
  | some be =>
    dsimp only
    by_cases hlt : adjErr be.2 p.1 p.2 r c < st.2
    · rw [if_pos hlt]
      rw [if_neg (lt_irrefl _)]
    · rw [if_neg hlt, if_neg hlt]

/-- A fold over cells of which only `p0` can hit the call map reduces to a
single application of the loop body at `p0`. -/
theorem foldl_adjStep_single (cm : CallMap) (r c : ℤ) (p0 : ℤ × ℤ) :
    ∀ (l : List (ℤ × ℤ)) (st : Base × ℝ), (∀ p ∈ l, p ≠ p0 → cm p = none) →
      List.foldl (adjStep cm r c) st l =
        if p0 ∈ l then adjStep cm r c st p0 else st := by
  intro l
  induction l with
  | nil => intro st _; simp
  | cons q l ih =>
    intro st h
    rw [List.foldl_cons]
    by_cases hq : q = p0
    · subst hq
      rw [ih (adjStep cm r c st q) (fun p hp hne => h p (List.mem_cons_of_mem q hp) hne)]
      by_cases hmem : q ∈ l
      · rw [if_pos hmem, if_pos (List.mem_cons_self q l), adjStep_self_idem]
      · rw [if_neg hmem, if_pos (List.mem_cons_self q l)]
    · have hcm : cm q = none := h q (List.mem_cons_self q l) hq
      have hstep : adjStep cm r c st q = st := by
        unfold adjStep
        rw [hcm]
      rw [hstep, ih st (fun p hp hne => h p (List.mem_cons_of_mem q hp) hne)]
      have : (p0 ∈ q :: l) ↔ (p0 ∈ l) := by
        simp only [List.mem_cons]
        constructor
        · rintro (rfl | hmem)
          · exact absurd rfl hq
          · exact hmem
        · exact Or.inr
      rw [if_congr this rfl rfl]

/-- The adjusted error rate is nonnegative. -/
theorem adjErr_nonneg (e : ℝ) (row col r c : ℤ) : 0 ≤ adjErr e row col r c := by
  unfold adjErr
  dsimp only
  split_ifs
  · norm_num
  · exact Real.sqrt_nonneg _

/-- The adjusted error rate never exceeds 1 (the clamp at lines 77–78). -/
theorem adjErr_le_one (e : ℝ) (row col r c : ℤ) : adjErr e row col r c ≤ 1 := by
  unfold adjErr
  dsimp only
  split_ifs with h
  · exact le_refl 1
  · exact not_lt.mp h

/-- The adjusted error rate never improves on the raw error rate. -/
theorem le_adjErr (e : ℝ) (row col r c : ℤ) (he0 : 0 ≤ e) (he1 : e ≤ 1) :
    e ≤ adjErr e row col r c := by
  unfold adjErr
  dsimp only
  split_ifs with h
  · exact he1
  · calc e = Real.sqrt (e ^ 2) := (Real.sqrt_sq he0).symm
      _ ≤ Real.sqrt ((e * Real.sqrt (((row - r : ℤ) : ℝ) ^ 2 + ((col - c : ℤ) : ℝ) ^ 2)) ^ 2 + e ^ 2) :=
        Real.sqrt_le_sqrt (le_add_of_nonneg_left (sq_nonneg _))

/-- A raw error rate of exactly 1 always adjusts to exactly 1. -/
theorem adjErr_one (row col r c : ℤ) : adjErr 1 row col r c = 1 := by
  unfold adjErr
  dsimp only
  split_ifs with h
  · rfl
  · have h1 : (1 : ℝ) ≤
        Real.sqrt ((1 * Real.sqrt (((row - r : ℤ) : ℝ) ^ 2 + ((col - c : ℤ) : ℝ) ^ 2)) ^ 2 + 1 ^ 2) := by
      calc (1 : ℝ) = Real.sqrt 1 := Real.sqrt_one.symm
        _ ≤ _ := Real.sqrt_le_sqrt (by nlinarith [sq_nonneg (1 * Real.sqrt (((row - r : ℤ) : ℝ) ^ 2 + ((col - c : ℤ) : ℝ) ^ 2))])
    exact le_antisymm (not_lt.mp h) h1

/-- Invariant of the window scan: the running state is either the initial
`('N', 1)` or records, for some already-scanned window cell holding a raw
call, that call's base together with its clamped distance-penalized error
rate, which bounds the raw rate below and lies in `[0, 1]`. -/
theorem adjFold_invariant (cm : CallMap) (r c : ℤ)
    (hrange : ∀ p b e, cm p = some (b, e) → 0 ≤ e ∧ e ≤ 1) :
    ∀ (l : List (ℤ × ℤ)) (st : Base × ℝ),
      (st = (Base.N, 1) ∨ ∃ p ∈ windowList r c, ∃ e, cm p = some (st.1, e) ∧
        st.2 = adjErr e p.1 p.2 r c ∧ e ≤ st.2 ∧ 0 ≤ st.2 ∧ st.2 ≤ 1) →
      (∀ p ∈ l, p ∈ windowList r c) →
      ((List.foldl (adjStep cm r c) st l) = (Base.N, 1) ∨
        ∃ p ∈ windowList r c, ∃ e,
          cm p = some ((List.foldl (adjStep cm r c) st l).1, e) ∧
          (List.foldl (adjStep cm r c) st l).2 = adjErr e p.1 p.2 r c ∧
          e ≤ (List.foldl (adjStep cm r c) st l).2 ∧
          0 ≤ (List.foldl (adjStep cm r c) st l).2 ∧
          (List.foldl (adjStep cm r c) st l).2 ≤ 1) := by
  intro l
  induction l with
  | nil => intro st hst _; exact hst
  | cons q l ih =>
    intro st hst hsub
    rw [List.foldl_cons]
    refine ih (adjStep cm r c st q) ?_ (fun p hp => hsub p (List.mem_cons_of_mem q hp))
    cases hcm : cm q with
    | none =>
      have : adjStep cm r c st q = st := by
        unfold adjStep
        rw [hcm]
      rw [this]
      exact hst
    | some be =>
      have hq : q ∈ windowList r c := hsub q (List.mem_cons_self q l)
      have hbe : cm q = some (be.1, be.2) := by rw [hcm]
      obtain ⟨he0, he1⟩ := hrange q be.1 be.2 hbe
      unfold adjStep
      rw [hcm]
      dsimp only
      by_cases hlt : adjErr be.2 q.1 q.2 r c < st.2
      · rw [if_pos hlt]
        exact Or.inr ⟨q, hq, be.2, hbe,
          rfl, le_adjErr be.2 q.1 q.2 r c he0 he1,
          adjErr_nonneg be.2 q.1 q.2 r c, adjErr_le_one be.2 q.1 q.2 r c⟩
      · rw [if_neg hlt]
        exact hst

/-- C7: for every call of the adjuster whose output base is not `'N'` (a raw
call was selected), the reported error rate equals the clamped
distance-penalized rate `sqrt((raw*D)^2 + raw^2)` of the chosen window cell,
is at least that cell's raw error rate, and lies in `[0, 1]` — provided
every raw error rate lies in `[0, 1]`. -/
theorem c7_adjust_formula_and_bounds (cm : CallMap) (r c : ℤ)
    (hrange : ∀ p b e, cm p = some (b, e) → 0 ≤ e ∧ e ≤ 1)
    (hb : (adjustAt cm r c).1 ≠ Base.N) :
    ∃ p ∈ windowList r c, ∃ e, cm p = some ((adjustAt cm r c).1, e) ∧
      (adjustAt cm r c).2 = adjErr e p.1 p.2 r c ∧
      e ≤ (adjustAt cm r c).2 ∧ 0 ≤ (adjustAt cm r c).2 ∧
      (adjustAt cm r c).2 ≤ 1 := by
  have h := adjFold_invariant cm r c hrange (windowList r c) (Base.N, 1)
    (Or.inl rfl) (fun p hp => hp)
  have hdef : adjustAt cm r c = List.foldl (adjStep cm r c) (Base.N, 1) (windowList r c) := rfl
  rw [← hdef] at h
  cases h with
  | inl h =>
    exfalso
    apply hb
    rw [h]
  | inr h => exact h

/-- C8: the adjuster reads the call map only inside the half-open window
`[r-5, r+7) × [c-5, c+7)` (rows `r-5 … r+6`, columns `c-5 … c+6`): the
scanned cells are exactly that box, and two call maps agreeing on it yield
the same selected call. -/
theorem c8_window_exactness (cm1 cm2 : CallMap) (r c : ℤ)
    (hagree : ∀ row col : ℤ, r - 5 ≤ row → row < r + 7 → c - 5 ≤ col → col < c + 7 →
      cm1 (row, col) = cm2 (row, col)) :
    (∀ p : ℤ × ℤ, p ∈ windowList r c ↔
      (r - 5 ≤ p.1 ∧ p.1 < r + 7 ∧ c - 5 ≤ p.2 ∧ p.2 < c + 7)) ∧
    adjustAt cm1 r c = adjustAt cm2 r c := by
  constructor
  · intro p
    exact mem_windowList
  · unfold adjustAt
    have hcongr : ∀ (l : List (ℤ × ℤ)) (st : Base × ℝ),
        (∀ p ∈ l, cm1 p = cm2 p) →
        List.foldl (adjStep cm1 r c) st l = List.foldl (adjStep cm2 r c) st l := by
      intro l
      induction l with
      | nil => intro st _; rfl
      | cons q l ih =>
        intro st h
        rw [List.foldl_cons, List.foldl_cons]
        have hq : cm1 q = cm2 q := h q (List.mem_cons_self q l)
        have hstep : adjStep cm1 r c st q = adjStep cm2 r c st q := by
          unfold adjStep
          rw [hq]
        rw [hstep]
        exact ih _ (fun p hp => h p (List.mem_cons_of_mem q hp))
    refine hcongr (windowList r c) (Base.N, 1) ?_
    intro p hp
    obtain ⟨h1, h2, h3, h4⟩ := mem_windowList.mp hp
    obtain ⟨p1, p2⟩ := p
    exact hagree p1 p2 h1 h2 h3 h4

/-- Witness for `c8_window_exactness`: the empty call map and a call map
whose only raw call lies far outside the window of `(0, 0)` agree on the
window and produce the same selected call. -/
theorem c8_window_exactness_witness :
    (∀ row col : ℤ, 0 - 5 ≤ row → row < 0 + 7 → 0 - 5 ≤ col → col < 0 + 7 →
      cmEmpty (row, col) = cmFar (row, col)) ∧
    adjustAt cmEmpty 0 0 = adjustAt cmFar 0 0 := by
  have hagree : ∀ row col : ℤ, 0 - 5 ≤ row → row < 0 + 7 → 0 - 5 ≤ col → col < 0 + 7 →
      cmEmpty (row, col) = cmFar (row, col) := by
    intro row col h1 h2 h3 h4
    unfold cmEmpty cmFar
    rw [if_neg ?_]
    intro heq
    have : row = 100 := (Prod.mk.injEq _ _ _ _ ▸ heq : _ ∧ _).1 ▸ rfl
    omega
  exact ⟨hagree, (c8_window_exactness cmEmpty cmFar 0 0 hagree).2⟩

/-- C9: a consensus coordinate whose window contains no raw call of the
cycle's call map is assigned base `'N'` with error rate exactly 1. -/
theorem c9_empty_window_N (cm : CallMap) (r c : ℤ)
    (hempty : ∀ p ∈ windowList r c, cm p = none) :
    adjustAt cm r c = (Base.N, 1) := by
  unfold adjustAt
  exact foldl_adjStep_none cm r c (windowList r c) (Base.N, 1) hempty

/-- Witness for `c9_empty_window_N`: the empty call map. -/
theorem c9_empty_window_N_witness :
    (∀ p ∈ windowList 0 0, cmEmpty p = none) ∧
    adjustAt cmEmpty 0 0 = (Base.N, 1) :=
  ⟨fun _ _ => rfl, c9_empty_window_N cmEmpty 0 0 (fun _ _ => rfl)⟩

/-- C10: the strict less-than comparison against the initial minimum of 1
means a raw call whose adjusted error rate is exactly 1 is never selected:
if every raw call in the window adjusts to exactly 1 the output is
`('N', 1)`, indistinguishable from an empty window; a raw error rate of 1
always adjusts to exactly 1. -/
theorem c10_error_rate_one_never_selected (cm : CallMap) (r c : ℤ)
    (hone : ∀ p ∈ windowList r c, ∀ b e, cm p = some (b, e) →
      adjErr e p.1 p.2 r c = 1) :
    adjustAt cm r c = (Base.N, 1) ∧ ∀ row col : ℤ, adjErr 1 row col r c = 1 := by
  constructor
  · unfold adjustAt
    have hgen : ∀ (l : List (ℤ × ℤ)), (∀ p ∈ l, ∀ b e, cm p = some (b, e) →
        adjErr e p.1 p.2 r c = 1) →
        List.foldl (adjStep cm r c) (Base.N, 1) l = (Base.N, 1) := by
      intro l
      induction l with
      | nil => intro _; rfl
      | cons q l ih =>
        intro h
        rw [List.foldl_cons]
        have hstep : adjStep cm r c (Base.N, 1) q = (Base.N, 1) := by
          unfold adjStep
          cases hcm : cm q with
          | none => rfl
          | some be =>
            dsimp only
            have h1 : adjErr be.2 q.1 q.2 r c = 1 := by
              refine h q (List.mem_cons_self q l) be.1 be.2 ?_
              rw [hcm]
            rw [h1, if_neg (lt_irrefl 1)]
        rw [hstep]
        exact ih (fun p hp => h p (List.mem_cons_of_mem q hp))
    exact hgen (windowList r c) hone
  · intro row col
    exact adjErr_one row col r c

/-- Witness for `c10_error_rate_one_never_selected`: a single raw call at
the consensus coordinate itself with raw error rate 1. -/
theorem c10_error_rate_one_never_selected_witness :
    (∀ p ∈ windowList 0 0, ∀ b e, cmSingleOne p = some (b, e) →
      adjErr e p.1 p.2 0 0 = 1) ∧
    adjustAt cmSingleOne 0 0 = (Base.N, 1) := by
  have hone : ∀ p ∈ windowList 0 0, ∀ b e, cmSingleOne p = some (b, e) →
      adjErr e p.1 p.2 0 0 = 1 := by
    intro p _ b e h
    unfold cmSingleOne at h
    by_cases hp : p = ((0 : ℤ), (0 : ℤ))
    · rw [if_pos hp] at h
      have he : e = 1 := by
        cases h
        rfl
      rw [he]
      exact adjErr_one p.1 p.2 0 0
    · rw [if_neg hp] at h
      exact absurd h (Option.noConfusion)
  exact ⟨hone, (c10_error_rate_one_never_selected cmSingleOne 0 0 hone).1⟩

/-- Evaluation of the window scan on the call map with the single raw call
`('A', 0)` at the origin: that call is selected with adjusted rate 0. -/
theorem adjustAt_cmSingleZero : adjustAt cmSingleZero 0 0 = (Base.A, 0) := by
  have hcm : cmSingleZero ((0 : ℤ), (0 : ℤ)) = some (Base.A, 0) := by
    unfold cmSingleZero
    rw [if_pos rfl]
  have ha : adjErr 0 0 0 0 0 = 0 := by
    unfold adjErr
    norm_num
  have hstep : adjStep cmSingleZero 0 0 (Base.N, 1) ((0 : ℤ), (0 : ℤ)) = (Base.A, 0) := by
    unfold adjStep
    rw [hcm]
    dsimp only
    rw [ha, if_pos (by norm_num : (0 : ℝ) < 1)]
  have hmem : ((0 : ℤ), (0 : ℤ)) ∈ windowList 0 0 := by decide
  unfold adjustAt
  rw [foldl_adjStep_single cmSingleZero 0 0 ((0 : ℤ), (0 : ℤ)) (windowList 0 0) (Base.N, 1)
    (fun p _ hne => by unfold cmSingleZero; rw [if_neg hne])]
  rw [if_pos hmem]
  exact hstep

/-- Witness for `c7_adjust_formula_and_bounds`: the call map with the single
raw call `('A', 0)` at the origin, whose selected base is `'A' ≠ 'N'`. -/
theorem c7_adjust_formula_and_bounds_witness :
    (∀ p b e, cmSingleZero p = some (b, e) → 0 ≤ e ∧ e ≤ 1) ∧
    (adjustAt cmSingleZero 0 0).1 ≠ Base.N ∧
    (∃ p ∈ windowList 0 0, ∃ e, cmSingleZero p = some ((adjustAt cmSingleZero 0 0).1, e) ∧
      (adjustAt cmSingleZero 0 0).2 = adjErr e p.1 p.2 0 0 ∧
      e ≤ (adjustAt cmSingleZero 0 0).2 ∧ 0 ≤ (adjustAt cmSingleZero 0 0).2 ∧
      (adjustAt cmSingleZero 0 0).2 ≤ 1) := by
  have hrange : ∀ p b e, cmSingleZero p = some (b, e) → 0 ≤ e ∧ e ≤ 1 := by
    intro p b e h
    unfold cmSingleZero at h
    by_cases hp : p = ((0 : ℤ), (0 : ℤ))
    · rw [if_pos hp] at h
      simp only [Option.some.injEq, Prod.mk.injEq] at h
      obtain ⟨-, he⟩ := h
      subst he
      norm_num
    · rw [if_neg hp] at h
      exact absurd h Option.noConfusion
  have hb : (adjustAt cmSingleZero 0 0).1 ≠ Base.N := by
    rw [adjustAt_cmSingleZero]
    intro h
    exact Base.noConfusion h
  exact ⟨hrange, hb, c7_adjust_formula_and_bounds cmSingleZero 0 0 hrange hb⟩

/-! ## Theorems: coordinate deduplicator -/

/-- 8-adjacency is symmetric. -/
theorem adj8_symm {p q : Pix} (h : adj8 p q) : adj8 q p := by
  obtain ⟨hne, h1, h2, h3, h4⟩ := h
  exact ⟨fun he => hne he.symm, h2, h1, h4, h3⟩

theorem subset_expandStep (S X : Finset Pix) : X ⊆ expandStep S X :=
  Finset.subset_union_left

theorem expandStep_subset {S X : Finset Pix} (hX : X ⊆ S) : expandStep S X ⊆ S := by
  unfold expandStep
  exact Finset.union_subset hX (Finset.filter_subset _ S)

theorem subset_compIter (S : Finset Pix) :
    ∀ (n : ℕ) (X : Finset Pix), X ⊆ compIter S n X := by
  intro n
  induction n with
  | zero => intro X; exact subset_refl X
  | succ n ih => intro X; exact (subset_expandStep S X).trans (ih (expandStep S X))

theorem compIter_subset {S : Finset Pix} :
    ∀ (n : ℕ) {X : Finset Pix}, X ⊆ S → compIter S n X ⊆ S := by
  intro n
  induction n with
  | zero => intro X hX; exact hX
  | succ n ih => intro X hX; exact ih (expandStep_subset hX)

theorem compIter_of_fix {S X : Finset Pix} (h : expandStep S X = X) :
    ∀ n, compIter S n X = X := by
  intro n
  induction n with
  | zero => rfl
  | succ n ih =>
    show compIter S n (expandStep S X) = X
    rw [h]
    exact ih

/-- Each expansion round either has reached the fixpoint or has grown the
set, so `n` rounds growing from `X` either fix or reach cardinality
`n + X.card`. -/
theorem compIter_reaches_fix (S : Finset Pix) :
    ∀ (n : ℕ) (X : Finset Pix), X ⊆ S →
      expandStep S (compIter S n X) = compIter S n X ∨
        n + X.card ≤ (compIter S n X).card := by
  intro n
  induction n with
  | zero => intro X _; exact Or.inr (by simp [compIter])
  | succ n ih =>
    intro X hX
    by_cases hfix : expandStep S X = X
    · left
      have h1 : compIter S (n + 1) X = X := by
        show compIter S n (expandStep S X) = X
        rw [hfix]
        exact compIter_of_fix hfix n
      rw [h1]
      exact hfix
    · have hXsub : X ⊆ expandStep S X := subset_expandStep S X
      have hlt : X.card < (expandStep S X).card := by
        refine Finset.card_lt_card ⟨hXsub, ?_⟩
        intro h'
        exact hfix (Finset.Subset.antisymm h' hXsub)
      rcases ih (expandStep S X) (expandStep_subset hX) with h | h
      · exact Or.inl h
      · right
        show n + 1 + X.card ≤ (compIter S n (expandStep S X)).card
        omega

/-- `S.card` expansion rounds always reach the fixpoint: the component of a
mask pixel is closed under 8-adjacency within the mask. -/
theorem expandStep_component {S : Finset Pix} {p : Pix} (hp : p ∈ S) :
    expandStep S (component S p) = component S p := by
  unfold component
  rcases compIter_reaches_fix S S.card {p} (Finset.singleton_subset_iff.mpr hp) with h | h
  · exact h
  · exfalso
    have hsub : compIter S S.card {p} ⊆ S :=
      compIter_subset S.card (Finset.singleton_subset_iff.mpr hp)
    have hle := Finset.card_le_card hsub
    rw [Finset.card_singleton] at h
    omega

theorem self_mem_component (S : Finset Pix) (p : Pix) : p ∈ component S p :=
  subset_compIter S S.card {p} (Finset.mem_singleton_self p)

theorem component_subset {S : Finset Pix} {p : Pix} (hp : p ∈ S) :
    component S p ⊆ S :=
  compIter_subset S.card (Finset.singleton_subset_iff.mpr hp)

theorem mem_component_of_reach {S : Finset Pix} {p q : Pix} (hp : p ∈ S)
    (h : reachIn S p q) : q ∈ component S p := by
  induction h with
  | refl => exact self_mem_component S p
  | @tail b d hab hbd ih =>
    obtain ⟨hbS, hdS, hadj⟩ := hbd
    have hmem : d ∈ expandStep S (component S p) := by
      unfold expandStep
      refine Finset.mem_union_right _ ?_
      rw [Finset.mem_filter]
      exact ⟨hdS, ⟨b, ih, hadj⟩⟩
    rwa [expandStep_component hp] at hmem

theorem reach_of_mem_compIter {S : Finset Pix} {p : Pix} :
    ∀ (n : ℕ) (X : Finset Pix), X ⊆ S → (∀ x ∈ X, reachIn S p x) →
      ∀ q ∈ compIter S n X, reachIn S p q := by
  intro n
  induction n with
  | zero => intro X _ hX q hq; exact hX q hq
  | succ n ih =>
    intro X hXS hX q hq
    refine ih (expandStep S X) (expandStep_subset hXS) ?_ q hq
    intro x hx
    unfold expandStep at hx
    rcases Finset.mem_union.mp hx with hx | hx
    · exact hX x hx
    · rw [Finset.mem_filter] at hx
      obtain ⟨hxS, y, hyX, hadj⟩ := hx
      exact Relation.ReflTransGen.tail (hX y hyX) ⟨hXS hyX, hxS, hadj⟩

theorem reach_of_mem_component {S : Finset Pix} {p q : Pix} (hp : p ∈ S)
    (hq : q ∈ component S p) : reachIn S p q := by
  refine reach_of_mem_compIter S.card {p} (Finset.singleton_subset_iff.mpr hp) ?_ q hq
  intro x hx
  rw [Finset.mem_singleton] at hx
  subst hx
  exact Relation.ReflTransGen.refl

theorem reachIn_symm {S : Finset Pix} {p q : Pix} (h : reachIn S p q) :
    reachIn S q p := by
  refine Relation.ReflTransGen.symmetric ?_ h
  intro a b hab
  exact ⟨hab.2.1, hab.1, adj8_symm hab.2.2⟩

theorem reachIn_mono {S T : Finset Pix} (hST : S ⊆ T) {p q : Pix}
    (h : reachIn S p q) : reachIn T p q := by
  induction h with
  | refl => exact Relation.ReflTransGen.refl
  | tail hab hbc ih =>
    exact Relation.ReflTransGen.tail ih ⟨hST hbc.1, hST hbc.2.1, hbc.2.2⟩

theorem mem_component_iff {S : Finset Pix} {p : Pix} (hp : p ∈ S) {q : Pix} :
    q ∈ component S p ↔ reachIn S p q :=
  ⟨reach_of_mem_component hp, mem_component_of_reach hp⟩

theorem component_eq_of_reach {S : Finset Pix} {p q : Pix} (hp : p ∈ S)
    (hq : q ∈ S) (h : reachIn S p q) : component S p = component S q := by
  ext r
  rw [mem_component_iff hp, mem_component_iff hq]
  constructor
  · intro hr
    exact Relation.ReflTransGen.trans (reachIn_symm h) hr
  · intro hr
    exact Relation.ReflTransGen.trans h hr

/-- A reachability path that never enters `F` is a path in `S` alone. -/
theorem reach_avoid {S F : Finset Pix} {p : Pix}
    (havoid : ∀ x, reachIn (S ∪ F) p x → x ∉ F) :
    ∀ q, reachIn (S ∪ F) p q → reachIn S p q := by
  intro q hq
  induction hq with
  | refl => exact Relation.ReflTransGen.refl
  | @tail b d hab hbd ih =>
    obtain ⟨hbM, hdM, hadj⟩ := hbd
    have hbF : b ∉ F := havoid b hab
    have hdF : d ∉ F := havoid d (Relation.ReflTransGen.tail hab ⟨hbM, hdM, hadj⟩)
    have hbS : b ∈ S := by
      rcases Finset.mem_union.mp hbM with h | h
      · exact h
      · exact absurd h hbF
    have hdS : d ∈ S := by
      rcases Finset.mem_union.mp hdM with h | h
      · exact h
      · exact absurd h hdF
    exact Relation.ReflTransGen.tail ih ⟨hbS, hdS, hadj⟩

/-- A component of the union mask that avoids the freshly painted footprint
`F` is equal, as a pixel set, to a component of the previous mask — painting
a footprint leaves every component it does not touch unchanged. -/
theorem component_untouched {S F : Finset Pix} {C : Finset Pix}
    (hC : C ∈ componentsOf (S ∪ F)) (hdis : ∀ x ∈ C, x ∉ F) :
    C ∈ componentsOf S := by
  unfold componentsOf at hC ⊢
  rw [Finset.mem_image] at hC
  obtain ⟨p, hpM, rfl⟩ := hC
  have hpC : p ∈ component (S ∪ F) p := self_mem_component _ p
  have hpF : p ∉ F := hdis p hpC
  have hpS : p ∈ S := by
    rcases Finset.mem_union.mp hpM with h | h
    · exact h
    · exact absurd h hpF
  rw [Finset.mem_image]
  refine ⟨p, hpS, ?_⟩
  apply Finset.Subset.antisymm
  · intro q hq
    exact mem_component_of_reach hpM
      (reachIn_mono Finset.subset_union_left (reach_of_mem_component hpS hq))
  · intro q hq
    have hreach := reach_of_mem_component hpM hq
    have havoid : ∀ x, reachIn (S ∪ F) p x → x ∉ F := by
      intro x hx
      exact hdis x (mem_component_of_reach hpM hx)
    exact mem_component_of_reach hpS (reach_avoid havoid q hreach)

/-- When the painted footprint is a clique under 8-adjacency (any subset of
a 2×2 block is), all components of the union mask that meet it coincide. -/
theorem component_touched_unique {S F : Finset Pix}
    (hclq : ∀ a ∈ F, ∀ b ∈ F, a = b ∨ adj8 a b)
    {C D : Finset Pix} (hC : C ∈ componentsOf (S ∪ F)) (hD : D ∈ componentsOf (S ∪ F))
    {x y : Pix} (hxC : x ∈ C) (hxF : x ∈ F) (hyD : y ∈ D) (hyF : y ∈ F) :
    C = D := by
  unfold componentsOf at hC hD
  rw [Finset.mem_image] at hC hD
  obtain ⟨p, hpM, rfl⟩ := hC
  obtain ⟨q, hqM, rfl⟩ := hD
  have hxM : x ∈ S ∪ F := component_subset hpM hxC
  have hyM : y ∈ S ∪ F := component_subset hqM hyD
  have h1 : component (S ∪ F) p = component (S ∪ F) x :=
    component_eq_of_reach hpM hxM (reach_of_mem_component hpM hxC)
  have h2 : component (S ∪ F) q = component (S ∪ F) y :=
    component_eq_of_reach hqM hyM (reach_of_mem_component hqM hyD)
  have h3 : component (S ∪ F) x = component (S ∪ F) y := by
    rcases hclq x hxF y hyF with h | h
    · rw [h]
    · exact component_eq_of_reach hxM hyM (Relation.ReflTransGen.single ⟨hxM, hyM, h⟩)
  rw [h1, h3, ← h2]

theorem mem_centroidsOf {cf : Finset Pix → Option Pix} {S : Finset Pix} {x : Pix} :
    x ∈ centroidsOf cf S ↔ ∃ C ∈ componentsOf S, cf C = some x := by
  unfold centroidsOf
  rw [Finset.mem_biUnion]
  constructor
  · rintro ⟨C, hC, hx⟩
    rw [Option.mem_toFinset] at hx
    exact ⟨C, hC, hx⟩
  · rintro ⟨C, hC, hx⟩
    refine ⟨C, hC, ?_⟩
    rw [Option.mem_toFinset]
    exact hx

/-- Painting one clique footprint adds at most one new centroid to the set
of component centroids: every component of the union mask either avoids the
footprint (and then is an old component, with its old centroid) or meets it
(and all such components coincide, contributing a single centroid). -/
theorem centroids_new_card {cf : Finset Pix → Option Pix} {S F : Finset Pix}
    (hclq : ∀ a ∈ F, ∀ b ∈ F, a = b ∨ adj8 a b) :
    (centroidsOf cf (S ∪ F) \ centroidsOf cf S).card ≤ 1 := by
  rw [Finset.card_le_one]
  intro a ha b hb
  rw [Finset.mem_sdiff] at ha hb
  obtain ⟨haIn, haOut⟩ := ha
  obtain ⟨hbIn, hbOut⟩ := hb
  rw [mem_centroidsOf] at haIn hbIn
  rw [mem_centroidsOf] at haOut hbOut
  obtain ⟨C, hC, hCa⟩ := haIn
  obtain ⟨D, hD, hDb⟩ := hbIn
  have hCF : ∃ x ∈ C, x ∈ F := by
    by_contra hno
    push_neg at hno
    exact haOut ⟨C, component_untouched hC hno, hCa⟩
  have hDF : ∃ x ∈ D, x ∈ F := by
    by_contra hno
    push_neg at hno
    exact hbOut ⟨D, component_untouched hD hno, hDb⟩
  obtain ⟨x, hxC, hxF⟩ := hCF
  obtain ⟨y, hyD, hyF⟩ := hDF
  have hCD : C = D := component_touched_unique hclq hC hD hxC hxF hyD hyF
  rw [hCD] at hCa
  exact Option.some.inj (hCa.symm.trans hDb)

theorem mem_footprint {shape : ℕ × ℕ} {co p : Pix} :
    p ∈ footprint shape co ↔
      p.1 < shape.1 ∧ p.2 < shape.2 ∧
        co.1 ≤ p.1 ∧ p.1 < co.1 + 2 ∧ co.2 ≤ p.2 ∧ p.2 < co.2 + 2 := by
  unfold footprint
  rw [Finset.mem_filter, Finset.mem_product, Finset.mem_range, Finset.mem_range]
  tauto

/-- Any two pixels of a (possibly clipped) 2×2 footprint are equal or
8-adjacent. -/
theorem footprint_clique {shape : ℕ × ℕ} {co : Pix} :
    ∀ a ∈ footprint shape co, ∀ b ∈ footprint shape co, a = b ∨ adj8 a b := by
  intro a ha b hb
  rw [mem_footprint] at ha hb
  by_cases hab : a = b
  · exact Or.inl hab
  · refine Or.inr ⟨hab, ?_, ?_, ?_, ?_⟩ <;> omega

/-- Fold invariant of `filter_blobs_list`: as long as every centroid of the
current mask is already collected, each step grows the collected set by at
most one element (the centroid of the component containing the new
footprint). -/
theorem dedup_fold_card (shape : ℕ × ℕ) (cf : Finset Pix → Option Pix) :
    ∀ (l : List Pix) (st : Finset Pix × Finset Pix),
      centroidsOf cf st.1 ⊆ st.2 →
      (List.foldl (dedupStep shape cf) st l).2.card ≤ st.2.card + l.length ∧
      centroidsOf cf (List.foldl (dedupStep shape cf) st l).1 ⊆
        (List.foldl (dedupStep shape cf) st l).2 := by
  intro l
  induction l with
  | nil => intro st h; exact ⟨by simp, h⟩
  | cons co l ih =>
    intro st h
    rw [List.foldl_cons]
    have hstep : dedupStep shape cf st co =
        (st.1 ∪ footprint shape co,
          st.2 ∪ centroidsOf cf (st.1 ∪ footprint shape co)) := rfl
    rw [hstep]
    have hsub' : centroidsOf cf (st.1 ∪ footprint shape co) ⊆
        st.2 ∪ centroidsOf cf (st.1 ∪ footprint shape co) :=
      Finset.subset_union_right
    have hcard : (st.2 ∪ centroidsOf cf (st.1 ∪ footprint shape co)).card ≤
        st.2.card + 1 := by
      rw [← Finset.union_sdiff_self_eq_union,
        Finset.card_union_of_disjoint Finset.disjoint_sdiff]
      have h2 : centroidsOf cf (st.1 ∪ footprint shape co) \ st.2 ⊆
          centroidsOf cf (st.1 ∪ footprint shape co) \ centroidsOf cf st.1 := by
        intro x hx
        rw [Finset.mem_sdiff] at hx ⊢
        exact ⟨hx.1, fun hc => hx.2 (h hc)⟩
      have h3 := Finset.card_le_card h2
      have h4 : (centroidsOf cf (st.1 ∪ footprint shape co) \
          centroidsOf cf st.1).card ≤ 1 :=
        centroids_new_card footprint_clique
      omega
    obtain ⟨ihcard, ihsub⟩ :=
      ih (st.1 ∪ footprint shape co,
        st.2 ∪ centroidsOf cf (st.1 ∪ footprint shape co)) hsub'
    refine ⟨?_, ihsub⟩
    dsimp only at ihcard
    simp only [List.length_cons]
    omega

/-- C3: for every background shape, every centroid model of
`findContours`/`moments`, and every enumeration (without duplicates) of the
candidate set, the consensus set produced by `filter_blobs_list` has at most
as many distinct coordinates as the input set. -/
theorem c3_dedup_card_le (shape : ℕ × ℕ) (cf : Finset Pix → Option Pix)
    (l : List Pix) (hnd : l.Nodup) :
    (filter_blobs_list shape cf l).card ≤ l.toFinset.card := by
  have hbase : centroidsOf cf ((∅, ∅) : Finset Pix × Finset Pix).1 ⊆
      ((∅, ∅) : Finset Pix × Finset Pix).2 := by
    unfold centroidsOf componentsOf
    simp
  have h := (dedup_fold_card shape cf l (∅, ∅) hbase).1
  rw [List.toFinset_card_of_nodup hnd]
  unfold filter_blobs_list
  simpa using h

/-- Witness for `c3_dedup_card_le` at a concrete input. -/
theorem c3_dedup_card_le_witness :
    ([((1 : ℕ), (1 : ℕ)), (1, 2)] : List Pix).Nodup ∧
    (filter_blobs_list shapeEx cvRectCentroid [(1, 1), (1, 2)]).card ≤
      ([((1 : ℕ), (1 : ℕ)), (1, 2)] : List Pix).toFinset.card :=
  ⟨by decide, c3_dedup_card_le shapeEx cvRectCentroid [(1, 1), (1, 2)] (by decide)⟩

/-- C5 (counterexample): `filter_blobs_list` is not idempotent.  On the
candidate set `{(1,1), (1,2)}`, enumerated as `[(1,1), (1,2)]`, the output
is again the set `{(1,1), (1,2)}` (painting `(1,1)` first records the
centroid `(1,1)` of its lone 2×2 block before `(1,2)` merges into it); but
re-running the deduplicator on that very output, enumerated as
`[(1,2), (1,1)]`, merges further and returns `{(1,2)}`. -/
theorem c5_counterexample_not_idempotent :
    ([((1 : ℕ), (2 : ℕ)), (1, 1)] : List Pix).toFinset =
      filter_blobs_list shapeEx cvRectCentroid [(1, 1), (1, 2)] ∧
    filter_blobs_list shapeEx cvRectCentroid [(1, 2), (1, 1)] ≠
      filter_blobs_list shapeEx cvRectCentroid [(1, 1), (1, 2)] := by
  decide

/-- C6 (counterexample): the consensus set depends on the enumeration order
of the input candidate set: the same two-element set `{(1,1), (1,2)}`
deduplicates to `{(1,1), (1,2)}` in one enumeration order and to `{(1,2)}`
in the other, because lines 40–49 recompute contours of the *partial* mask
inside the accumulation loop. -/
theorem c6_counterexample_order_dependent :
    ([((1 : ℕ), (1 : ℕ)), (1, 2)] : List Pix).toFinset =
      ([((1 : ℕ), (2 : ℕ)), (1, 1)] : List Pix).toFinset ∧
    filter_blobs_list shapeEx cvRectCentroid [(1, 1), (1, 2)] ≠
      filter_blobs_list shapeEx cvRectCentroid [(1, 2), (1, 1)] := by
  decide

theorem mem_rectFinset {r0 r1 c0 c1 : ℕ} {p : Pix} :
    p ∈ rectFinset r0 r1 c0 c1 ↔ r0 ≤ p.1 ∧ p.1 ≤ r1 ∧ c0 ≤ p.2 ∧ p.2 ≤ c1 := by
  unfold rectFinset
  rw [Finset.mem_product, Finset.mem_Icc, Finset.mem_Icc]
  tauto

theorem rectFinset_nonempty {r0 r1 c0 c1 : ℕ} (hr : r0 ≤ r1) (hc : c0 ≤ c1) :
    (rectFinset r0 r1 c0 c1).Nonempty := by
  refine ⟨(r0, c0), ?_⟩
  rw [mem_rectFinset]
  exact ⟨le_refl r0, hr, le_refl c0, hc⟩

/-- The footprint of a coordinate lying fully inside the background is the
full 2×2 rectangle of pixels. -/
theorem footprint_eq_rect {shape : ℕ × ℕ} {co : Pix} (hin : inBoundsFull shape co) :
    footprint shape co = rectFinset co.1 (co.1 + 1) co.2 (co.2 + 1) := by
  obtain ⟨h1, h2⟩ := hin
  ext p
  rw [mem_footprint, mem_rectFinset]
  omega

/-- The modelled contour centroid of an unclipped 2×2 block at `(r0, c0)` is
`(r0, c0)` itself (`m00 = 1`, centre `(r0 + 0.5, c0 + 0.5)` truncated). -/
theorem cvRectCentroid_square (r0 c0 : ℕ) :
    cvRectCentroid (rectFinset r0 (r0 + 1) c0 (c0 + 1)) = some (r0, c0) := by
  have hne : (rectFinset r0 (r0 + 1) c0 (c0 + 1)).Nonempty :=
    rectFinset_nonempty (by omega) (by omega)
  have hmem : ((r0, c0) : Pix) ∈ rectFinset r0 (r0 + 1) c0 (c0 + 1) := by
    rw [mem_rectFinset]
    exact ⟨le_refl r0, by omega, le_refl c0, by omega⟩
  have hinf1 : (rectFinset r0 (r0 + 1) c0 (c0 + 1)).inf' hne Prod.fst = r0 := by
    apply le_antisymm
    · exact Finset.inf'_le Prod.fst hmem
    · apply Finset.le_inf'
      intro b hb
      rw [mem_rectFinset] at hb
      exact hb.1
  have hsup1 : (rectFinset r0 (r0 + 1) c0 (c0 + 1)).sup' hne Prod.fst = r0 + 1 := by
    apply le_antisymm
    · apply Finset.sup'_le
      intro b hb
      rw [mem_rectFinset] at hb
      exact hb.2.1
    · have hmem' : ((r0 + 1, c0) : Pix) ∈ rectFinset r0 (r0 + 1) c0 (c0 + 1) := by
        rw [mem_rectFinset]
        exact ⟨by omega, le_refl _, le_refl c0, by omega⟩
      exact Finset.le_sup' Prod.fst hmem'
  have hinf2 : (rectFinset r0 (r0 + 1) c0 (c0 + 1)).inf' hne Prod.snd = c0 := by
    apply le_antisymm
    · exact Finset.inf'_le Prod.snd hmem
    · apply Finset.le_inf'
      intro b hb
      rw [mem_rectFinset] at hb
      exact hb.2.2.1
  have hsup2 : (rectFinset r0 (r0 + 1) c0 (c0 + 1)).sup' hne Prod.snd = c0 + 1 := by
    apply le_antisymm
    · apply Finset.sup'_le
      intro b hb
      rw [mem_rectFinset] at hb
      exact hb.2.2.2
    · have hmem' : ((r0, c0 + 1) : Pix) ∈ rectFinset r0 (r0 + 1) c0 (c0 + 1) := by
        rw [mem_rectFinset]
        exact ⟨le_refl _, by omega, by omega, le_refl _⟩
      exact Finset.le_sup' Prod.snd hmem'
  unfold cvRectCentroid
  rw [dif_pos hne]
  simp only [hinf1, hsup1, hinf2, hsup2]
  rw [if_pos ⟨by omega, by omega, trivial⟩]
  have e1 : (r0 + (r0 + 1)) / 2 = r0 := by omega
  have e2 : (c0 + (c0 + 1)) / 2 = c0 := by omega
  rw [e1, e2]

/-- Pixels of the footprints of two separated coordinates are never
8-adjacent. -/
theorem sep_not_adj {shape : ℕ × ℕ} {co co' : Pix} (hs : sep co co')
    {p q : Pix} (hp : p ∈ footprint shape co) (hq : q ∈ footprint shape co') :
    ¬ adj8 p q := by
  rw [mem_footprint] at hp hq
  intro hadj
  obtain ⟨hne, h1, h2, h3, h4⟩ := hadj
  unfold sep at hs
  omega

/-- In the mask painted by a family of pairwise separated footprints, the
component of any footprint pixel is exactly that footprint. -/
theorem component_sep_eq_footprint {shape : ℕ × ℕ} {A : Finset Pix}
    (hsep : ∀ co ∈ A, ∀ co' ∈ A, co ≠ co' → sep co co')
    {co : Pix} (hco : co ∈ A) {p : Pix} (hp : p ∈ footprint shape co) :
    component (A.biUnion (footprint shape)) p = footprint shape co := by
  have hpM : p ∈ A.biUnion (footprint shape) := Finset.mem_biUnion.mpr ⟨co, hco, hp⟩
  apply Finset.Subset.antisymm
  · intro q hq
    have hreach := reach_of_mem_component hpM hq
    clear hq
    induction hreach with
    | refl => exact hp
    | @tail b d hab hbd ih =>
      obtain ⟨hbM, hdM, hadj⟩ := hbd
      obtain ⟨co', hco', hdF⟩ := Finset.mem_biUnion.mp hdM
      by_cases hcc : co' = co
      · subst hcc
        exact hdF
      · exfalso
        exact sep_not_adj (hsep co hco co' hco' (fun he => hcc he.symm)) ih hdF hadj
  · intro q hq
    refine mem_component_of_reach hpM ?_
    rcases footprint_clique p hp q hq with h | h
    · subst h
      exact Relation.ReflTransGen.refl
    · exact Relation.ReflTransGen.single
        ⟨hpM, Finset.mem_biUnion.mpr ⟨co, hco, hq⟩, h⟩

/-- The components of a mask painted by pairwise separated, fully in-bounds
footprints are exactly those footprints. -/
theorem componentsOf_sep {shape : ℕ × ℕ} {A : Finset Pix}
    (hin : ∀ co ∈ A, inBoundsFull shape co)
    (hsep : ∀ co ∈ A, ∀ co' ∈ A, co ≠ co' → sep co co') :
    componentsOf (A.biUnion (footprint shape)) = A.image (footprint shape) := by
  ext C
  unfold componentsOf
  rw [Finset.mem_image, Finset.mem_image]
  constructor
  · rintro ⟨p, hpM, rfl⟩
    obtain ⟨co, hco, hp⟩ := Finset.mem_biUnion.mp hpM
    exact ⟨co, hco, (component_sep_eq_footprint hsep hco hp).symm⟩
  · rintro ⟨co, hco, rfl⟩
    have hcf : co ∈ footprint shape co := by
      rw [mem_footprint]
      have hb := hin co hco
      unfold inBoundsFull at hb
      omega
    exact ⟨co, Finset.mem_biUnion.mpr ⟨co, hco, hcf⟩,
      component_sep_eq_footprint hsep hco hcf⟩

/-- On such a mask the collected centroids are exactly the coordinates
themselves. -/
theorem centroidsOf_sep {shape : ℕ × ℕ} {A : Finset Pix}
    (hin : ∀ co ∈ A, inBoundsFull shape co)
    (hsep : ∀ co ∈ A, ∀ co' ∈ A, co ≠ co' → sep co co') :
    centroidsOf cvRectCentroid (A.biUnion (footprint shape)) = A := by
  ext x
  rw [mem_centroidsOf]
  constructor
  · rintro ⟨C, hC, hcf⟩
    rw [componentsOf_sep hin hsep, Finset.mem_image] at hC
    obtain ⟨co, hco, rfl⟩ := hC
    rw [footprint_eq_rect (hin co hco), cvRectCentroid_square] at hcf
    have hx : ((co.1, co.2) : Pix) = x := Option.some.inj hcf
    rw [← hx]
    exact hco
  · intro hx
    refine ⟨footprint shape x, ?_, ?_⟩
    · rw [componentsOf_sep hin hsep, Finset.mem_image]
      exact ⟨x, hx, rfl⟩
    · rw [footprint_eq_rect (hin x hx), cvRectCentroid_square]

theorem insert_union_toFinset (co : Pix) (A : Finset Pix) (l : List Pix) :
    insert co A ∪ l.toFinset = A ∪ (co :: l).toFinset := by
  ext x
  rw [List.toFinset_cons]
  simp only [Finset.mem_union, Finset.mem_insert]
  tauto

/-- Fold of `filter_blobs_list` on a pairwise separated, fully in-bounds
candidate family: the mask stays the union of the painted footprints and the
collected set stays exactly the painted coordinates. -/
theorem dedup_sep_fold (shape : ℕ × ℕ) :
    ∀ (l : List Pix) (A : Finset Pix),
      (∀ co ∈ A ∪ l.toFinset, inBoundsFull shape co) →
      (∀ co ∈ A ∪ l.toFinset, ∀ co' ∈ A ∪ l.toFinset, co ≠ co' → sep co co') →
      List.foldl (dedupStep shape cvRectCentroid) (A.biUnion (footprint shape), A) l =
        ((A ∪ l.toFinset).biUnion (footprint shape), A ∪ l.toFinset) := by
  intro l
  induction l with
  | nil =>
    intro A _ _
    simp
  | cons co l ih =>
    intro A hin hsep
    have hAsub : insert co A ⊆ A ∪ (co :: l).toFinset := by
      intro x hx
      rcases Finset.mem_insert.mp hx with rfl | hx
      · exact Finset.mem_union_right _ (List.mem_toFinset.mpr (List.mem_cons_self x l))
      · exact Finset.mem_union_left _ hx
    have hin' : ∀ c ∈ insert co A, inBoundsFull shape c := fun c hc => hin c (hAsub hc)
    have hsep' : ∀ c ∈ insert co A, ∀ c' ∈ insert co A, c ≠ c' → sep c c' :=
      fun c hc c' hc' => hsep c (hAsub hc) c' (hAsub hc')
    rw [List.foldl_cons]
    have hstep : dedupStep shape cvRectCentroid (A.biUnion (footprint shape), A) co =
        ((insert co A).biUnion (footprint shape), insert co A) := by
      unfold dedupStep
      dsimp only
      have hmask : A.biUnion (footprint shape) ∪ footprint shape co =
          (insert co A).biUnion (footprint shape) := by
        rw [Finset.biUnion_insert, Finset.union_comm]
      rw [hmask, centroidsOf_sep hin' hsep']
      rw [Finset.union_eq_right.mpr (Finset.subset_insert co A)]
    rw [hstep]
    have hset : insert co A ∪ l.toFinset = A ∪ (co :: l).toFinset :=
      insert_union_toFinset co A l
    have hin2 : ∀ c ∈ insert co A ∪ l.toFinset, inBoundsFull shape c := by
      rw [hset]
      exact hin
    have hsep2 : ∀ c ∈ insert co A ∪ l.toFinset, ∀ c' ∈ insert co A ∪ l.toFinset,
        c ≠ c' → sep c c' := by
      rw [hset]
      exact hsep
    rw [ih (insert co A) hin2 hsep2, hset]

/-- On a pairwise separated, fully in-bounds candidate set the deduplicator
returns exactly the input set: each footprint is its own component and its
centroid is its own coordinate. -/
theorem dedup_separated_eq (shape : ℕ × ℕ) (l : List Pix)
    (hin : ∀ co ∈ l, inBoundsFull shape co)
    (hsep : ∀ co ∈ l, ∀ co' ∈ l, co ≠ co' → sep co co') :
    filter_blobs_list shape cvRectCentroid l = l.toFinset := by
  have hin' : ∀ co ∈ (∅ : Finset Pix) ∪ l.toFinset, inBoundsFull shape co := by
    intro co hco
    rw [Finset.empty_union, List.mem_toFinset] at hco
    exact hin co hco
  have hsep' : ∀ co ∈ (∅ : Finset Pix) ∪ l.toFinset,
      ∀ co' ∈ (∅ : Finset Pix) ∪ l.toFinset, co ≠ co' → sep co co' := by
    intro co hco co' hco' hne
    rw [Finset.empty_union, List.mem_toFinset] at hco hco'
    exact hsep co hco co' hco' hne
  have h := dedup_sep_fold shape l ∅ hin' hsep'
  unfold filter_blobs_list
  rw [show ((∅ : Finset Pix), (∅ : Finset Pix)) =
      ((∅ : Finset Pix).biUnion (footprint shape), (∅ : Finset Pix)) by simp]
  rw [h]
  simp

/-- C5 (amended): the deduplicator is not idempotent in general
(`c5_counterexample_not_idempotent` — its output can still contain touching
footprints, which a re-run in a different enumeration order merges further);
it is idempotent on candidate sets whose coordinates are pairwise separated
(rows or columns at least 3 apart, so footprints neither touch nor overlap)
and fully in-bounds: there the output equals the input set, and re-running
the deduplicator on any enumeration of that output reproduces it. -/
theorem c5_idempotent_on_separated (shape : ℕ × ℕ) (l l2 : List Pix)
    (hin : ∀ co ∈ l, inBoundsFull shape co)
    (hsep : ∀ co ∈ l, ∀ co' ∈ l, co ≠ co' → sep co co')
    (h2 : l2.toFinset = filter_blobs_list shape cvRectCentroid l) :
    filter_blobs_list shape cvRectCentroid l2 =
      filter_blobs_list shape cvRectCentroid l := by
  have hfix : filter_blobs_list shape cvRectCentroid l = l.toFinset :=
    dedup_separated_eq shape l hin hsep
  have hmem : ∀ co, co ∈ l2 ↔ co ∈ l := by
    intro co
    rw [← List.mem_toFinset, h2, hfix, List.mem_toFinset]
  have hfix2 : filter_blobs_list shape cvRectCentroid l2 = l2.toFinset :=
    dedup_separated_eq shape l2 (fun co hc => hin co ((hmem co).mp hc))
      (fun co hc co' hc' hne => hsep co ((hmem co).mp hc) co' ((hmem co').mp hc') hne)
  rw [hfix2, h2]

/-- Witness for `c5_idempotent_on_separated`: the set `{(1,1), (1,5)}`
(columns 4 apart) inside a 4×8 background deduplicates to itself, and
re-running on the other enumeration of that output reproduces it. -/
theorem c5_idempotent_on_separated_witness :
    (∀ co ∈ ([(1, 1), (1, 5)] : List Pix), inBoundsFull (4, 8) co) ∧
    (∀ co ∈ ([(1, 1), (1, 5)] : List Pix), ∀ co' ∈ ([(1, 1), (1, 5)] : List Pix),
      co ≠ co' → sep co co') ∧
    ([(1, 5), (1, 1)] : List Pix).toFinset =
      filter_blobs_list (4, 8) cvRectCentroid [(1, 1), (1, 5)] ∧
    filter_blobs_list (4, 8) cvRectCentroid [(1, 5), (1, 1)] =
      filter_blobs_list (4, 8) cvRectCentroid [(1, 1), (1, 5)] :=
  ⟨by decide, by decide, by decide,
   c5_idempotent_on_separated (4, 8) [(1, 1), (1, 5)] [(1, 5), (1, 1)]
     (by decide) (by decide) (by decide)⟩

/-- C6 (amended): the deduplicator is a pure function of the enumerated
input sequence, but its result can depend on the enumeration order of the
candidate set (`c6_counterexample_order_dependent`, caused by recomputing
contours of the partial mask inside the loop); on candidate sets whose
coordinates are pairwise separated and fully in-bounds the result is
order-independent: any two enumerations of the same set produce the same
consensus set. -/
theorem c6_order_independent_on_separated (shape : ℕ × ℕ) (l1 l2 : List Pix)
    (hin : ∀ co ∈ l1, inBoundsFull shape co)
    (hsep : ∀ co ∈ l1, ∀ co' ∈ l1, co ≠ co' → sep co co')
    (hset : l1.toFinset = l2.toFinset) :
    filter_blobs_list shape cvRectCentroid l1 =
      filter_blobs_list shape cvRectCentroid l2 := by
  have hmem : ∀ co, co ∈ l2 ↔ co ∈ l1 := by
    intro co
    rw [← List.mem_toFinset, ← hset, List.mem_toFinset]
  rw [dedup_separated_eq shape l1 hin hsep,
    dedup_separated_eq shape l2 (fun co hc => hin co ((hmem co).mp hc))
      (fun co hc co' hc' hne => hsep co ((hmem co).mp hc) co' ((hmem co').mp hc') hne),
    hset]

/-- Witness for `c6_order_independent_on_separated`: the two enumerations of
`{(1,1), (1,5)}` deduplicate identically. -/
theorem c6_order_independent_on_separated_witness :
    (∀ co ∈ ([(1, 1), (1, 5)] : List Pix), inBoundsFull (4, 8) co) ∧
    ([(1, 1), (1, 5)] : List Pix).toFinset = ([(1, 5), (1, 1)] : List Pix).toFinset ∧
    filter_blobs_list (4, 8) cvRectCentroid [(1, 1), (1, 5)] =
      filter_blobs_list (4, 8) cvRectCentroid [(1, 5), (1, 1)] :=
  ⟨by decide, by decide,
   c6_order_independent_on_separated (4, 8) [(1, 1), (1, 5)] [(1, 5), (1, 1)]
     (by decide) (by decide) (by decide)⟩
